import Mathlib

/-!
Verification of the title-normalization core of Mod-Alchemist
(`scripts/cucholix/format_repo5.py`): `sanitize_name`,
`capitalize_hyphenated`, `is_roman_numeral` and
`title_case_preserve_numbers`.

Strings are modelled as lists of Unicode code points (`List Nat`).
Python's `str.lower`/`str.upper` are modelled by their action on ASCII
letters; every string reaching the title caser in the verified pipeline is
the output of `sanitize_name`, which is ASCII-only, and on ASCII strings
the model agrees with Python exactly.
-/

namespace ModAlchemist

/-- Strings as lists of Unicode code points. -/
abbrev Str := List Nat

/-- Code-point list of a Lean string literal (used to write concrete inputs). -/
def str (s : String) : Str := s.data.map Char.toNat

/-- ASCII lowercasing of one code point (models `str.lower` per character). -/
def pyLower (c : Nat) : Nat := if 65 ≤ c ∧ c ≤ 90 then c + 32 else c

/-- ASCII uppercasing of one code point (models `str.upper` per character). -/
def pyUpper (c : Nat) : Nat := if 97 ≤ c ∧ c ≤ 122 then c - 32 else c

/-- Models Python `s.lower()`. -/
def strLower (s : Str) : Str := s.map pyLower

/-- Models Python `s.upper()`. -/
def strUpper (s : Str) : Str := s.map pyUpper

/-- ASCII whitespace recognized by Python `str.split()` / `str.strip()`. -/
def isPyWs (c : Nat) : Bool := decide (c = 32 ∨ c = 9 ∨ c = 10 ∨ c = 13 ∨ c = 11 ∨ c = 12)

/-- Membership in the source's `subtitle_markers = {":", "~", "-", "–", "—"}`,
as a test on one code point (all markers are single characters:
58 `:`, 126 `~`, 45 `-`, 8211 en dash, 8212 em dash). -/
def isMarker (c : Nat) : Bool := decide (c = 58 ∨ c = 126 ∨ c = 45 ∨ c = 8211 ∨ c = 8212)

/-- Joining a list of strings with a separator (Python `sep.join(parts)`). -/
def joinSep (d : Str) : List Str → Str
  | [] => []
  | [p] => p
  | p :: ps => p ++ d ++ joinSep d ps

/-- Prepends a code point onto the first chunk of a chunk list. -/
def consHead (c : Nat) : List Str → List Str
  | [] => [[c]]
  | p :: ps => (c :: p) :: ps

/-- Models Python `s.split(sep)` for a one-character separator: split at every
occurrence of `sep`, keeping empty pieces. -/
def splitOnChar (sep : Nat) : Str → List Str
  | [] => [[]]
  | c :: cs => if c = sep then [] :: splitOnChar sep cs else consHead c (splitOnChar sep cs)

/-- Models `re.split` with the pattern of the source
(a capturing class of the five subtitle-marker characters): split at every
marker character, keeping the markers as their own elements. -/
def splitKeepMarkers : Str → List Str
  | [] => [[]]
  | c :: cs =>
      if isMarker c then [] :: [c] :: splitKeepMarkers cs
      else consHead c (splitKeepMarkers cs)

/-- Accumulator core of `pySplitWs`; `acc` holds the current word reversed. -/
def splitWsCore : Str → Str → List Str
  | [], acc => if acc.isEmpty then [] else [acc.reverse]
  | c :: cs, acc =>
      if isPyWs c then
        if acc.isEmpty then splitWsCore cs [] else acc.reverse :: splitWsCore cs []
      else splitWsCore cs (c :: acc)

/-- Models Python `s.split()` (no argument): splits on runs of whitespace,
yielding the nonempty words only. -/
def pySplitWs (s : Str) : List Str := splitWsCore s []

/-- Models Python `s.strip()`. -/
def pyStrip (s : Str) : Str := ((s.dropWhile isPyWs).reverse.dropWhile isPyWs).reverse

/-- Models Python `s.replace(c, "")` for a one-character pattern. -/
def removeChar (c : Nat) (s : Str) : Str := s.filter (fun x => x ≠ c)

/-- Models Python `s.replace(" - ", " ")`: left-to-right, non-overlapping,
the replacement text is not rescanned (scanning resumes after the match). -/
def replaceDash : Str → Str
  | 32 :: 45 :: 32 :: rest => 32 :: replaceDash rest
  | c :: cs => c :: replaceDash cs
  | [] => []

/-- Source `sanitize_name` (format_repo5.py lines 8–16).
The first step models
`unicodedata.normalize('NFKD', name).encode('ascii', 'ignore').decode('ascii')`:
ASCII code points are NFKD-fixed and survive the ASCII encoding, while every
non-ASCII code point of the decomposition is dropped by `'ignore'`; the model
keeps ASCII code points and drops non-ASCII ones (no theorem below depends on
which ASCII residue a particular non-ASCII character leaves behind, only on
the output being ASCII). The removed quote characters are
39 `'`, 8217 right single quotation mark, 96 backtick, 34 `"`. -/
def sanitize_name (s : Str) : Str :=
  let normalized := s.filter (fun c => c < 128)
  let cleaned := removeChar 34 (removeChar 96 (removeChar 8217 (removeChar 39 normalized)))
  let cleaned2 := replaceDash cleaned
  pyStrip (joinSep [32] (pySplitWs cleaned2))

/-- Capitalization of one hyphen piece inside `capitalize_hyphenated`:
`part[0].upper() + part[1:].lower() if len(part) > 1 else part.upper()`,
and `''` for an empty piece. -/
def capPart : Str → Str
  | [] => []
  | [c] => [pyUpper c]
  | c :: rest => pyUpper c :: strLower rest

/-- Source `capitalize_hyphenated` (lines 18–29): split the word on `-` (45),
capitalize each piece, rejoin with `-`. -/
def capitalize_hyphenated (w : Str) : Str :=
  joinSep [45] ((splitOnChar 45 w).map capPart)

/-- Alternatives of `M{0,4}` in `ROMAN_NUMERAL_PATTERN`. -/
def romThousands : List Str := [[], str "M", str "MM", str "MMM", str "MMMM"]

/-- Alternatives of `(CM|CD|D?C{0,3})`. -/
def romHundreds : List Str :=
  [str "CM", str "CD", [], str "C", str "CC", str "CCC", str "D", str "DC", str "DCC", str "DCCC"]

/-- Alternatives of `(XC|XL|L?X{0,3})`. -/
def romTens : List Str :=
  [str "XC", str "XL", [], str "X", str "XX", str "XXX", str "L", str "LX", str "LXX", str "LXXX"]

/-- Alternatives of `(IX|IV|V?I{0,3})`. -/
def romUnits : List Str :=
  [str "IX", str "IV", [], str "I", str "II", str "III", str "V", str "VI", str "VII", str "VIII"]

/-- Strips `p` from the front of `s` if it is a prefix, yielding the rest. -/
def stripPre : Str → Str → Option Str
  | [], s => some s
  | _, [] => none
  | p :: ps, c :: cs => if p = c then stripPre ps cs else none

/-- An anchored match of `ROMAN_NUMERAL_PATTERN` against the (already
uppercased) string `u` exists iff `u` factors as one alternative from each of
the four groups in order. -/
def romanCheck (u : Str) : Bool :=
  romThousands.any fun a =>
    match stripPre a u with
    | none => false
    | some r1 =>
        romHundreds.any fun b =>
          match stripPre b r1 with
          | none => false
          | some r2 =>
              romTens.any fun c =>
                match stripPre c r2 with
                | none => false
                | some r3 => romUnits.any fun d => decide (r3 = d)

/-- Source `is_roman_numeral` (lines 43–47): anchored, case-insensitive match
of `ROMAN_NUMERAL_PATTERN` (lines 32–35); `re.IGNORECASE` is modelled by
uppercasing the token first. (Python's `$` would also accept one trailing
newline, but every call site passes a token split from whitespace-free text.) -/
def is_roman_numeral (w : Str) : Bool := romanCheck (strUpper w)

/-- Source constant `ACRONYMS` (lines 37–41). -/
def ACRONYMS : List Str :=
  [str "HD", str "2D", str "3D", str "4K", str "VR", str "AI", str "API", str "USB",
   str "CPU", str "GPU", str "DVD", str "CD", str "RPG", str "FPS", str "MMO",
   str "MMORPG", str "LAN", str "GUI", str "NPC", str "FFVII", str "FFVIII",
   str "FX", str "FFIX", str "FFX", str "FFXII"]

/-- Source constant `lowercase_exceptions` (lines 62–65). -/
def lowercase_exceptions : List Str :=
  [str "a", str "an", str "and", str "as", str "at", str "but", str "by", str "for",
   str "from", str "in", str "nor", str "of", str "on", str "or", str "so",
   str "the", str "to", str "with", str "yet"]

/-- Compound-numeral attempt of `capitalize_special` for one separator: if
`sep` occurs in `w` and every `sep`-piece is a Roman numeral, each piece is
uppercased and rejoined with `sep`. -/
def compoundRoman (sep : Nat) (w : Str) : Option Str :=
  if w.contains sep then
    let parts := splitOnChar sep w
    if parts.all is_roman_numeral then some (joinSep [sep] (parts.map strUpper)) else none
  else none

/-- Source inner helper `capitalize_special` (lines 92–106): acronyms keep
their uppercase form, Roman numerals are uppercased, compound Roman numerals
joined by `&` (38), `+` (43) or `|` (124) are uppercased piecewise (the
separators tried in that order, falling through when not every piece is a
numeral), and anything else goes through `capitalize_hyphenated`. -/
def capitalize_special (w : Str) : Str :=
  if ACRONYMS.contains (strUpper w) then strUpper w
  else if is_roman_numeral w then strUpper w
  else
    match compoundRoman 38 w with
    | some r => r
    | none =>
        match compoundRoman 43 w with
        | some r => r
        | none =>
            match compoundRoman 124 w with
            | some r => r
            | none => capitalize_hyphenated w

/-- Capitalized rendering of one non-marker segment (lines 109–112): split on
`-`, apply `capitalize_special` to each piece, rejoin with `-`. -/
def renderCap (p : Str) : Str :=
  joinSep [45] ((splitOnChar 45 p).map capitalize_special)

/-- Whether a `re.split` element is one of the marker strings
(`part in subtitle_markers`). -/
def isMarkerPart : Str → Bool
  | [c] => isMarker c
  | _ => false

/-- Whether the raw word contains a subtitle-marker character
(`any(marker in word for marker in subtitle_markers)`). -/
def containsMarker (w : Str) : Bool := w.any isMarker

/-- Loop over the `re.split` elements of one word (lines 78–118): a marker
element is appended verbatim and switches `force_capitalize_mode` on; any
other element is capitalized when the mode is on, the word is first or last,
or its lowercasing is not a filler word, and lowercased otherwise. Returns
the rebuilt word and the mode after the word. -/
def processParts : List Str → Bool → Bool → Bool → Str × Bool
  | [], _, _, f => ([], f)
  | p :: ps, isF, isL, f =>
      if isMarkerPart p then
        let rest := processParts ps isF isL true
        (p ++ rest.1, rest.2)
      else
        let lowerPart := strLower p
        let out :=
          if f || isF || isL || !(lowercase_exceptions.contains lowerPart) then renderCap p
          else lowerPart
        let rest := processParts ps isF isL f
        (out ++ rest.1, rest.2)

/-- Processing of one whitespace word (lines 72–122): render its `re.split`
elements, then reset `force_capitalize_mode` to false when the raw word
contained no marker character. -/
def processWord (w : Str) (isF isL f : Bool) : Str × Bool :=
  let r := processParts (splitKeepMarkers w) isF isL f
  (r.1, if containsMarker w then r.2 else false)

/-- Word loop of `title_case_preserve_numbers` with the total word count `n`,
the running index and the carried `force_capitalize_mode`. -/
def titleLoop (n : Nat) : List Str → Nat → Bool → List Str
  | [], _, _ => []
  | w :: ws, idx, f =>
      let r := processWord w (decide (idx = 0)) (decide (idx = n - 1)) f
      r.1 :: titleLoop n ws (idx + 1) r.2

/-- Post-pass rendering of one hyphen piece of the first/last word
(lines 126–128 and 132–134): uppercase when the uppercased piece is an
acronym or the piece is a Roman numeral, else `capitalize_hyphenated`. -/
def postCap (sp : Str) : Str :=
  if ACRONYMS.contains (strUpper sp) || is_roman_numeral sp then strUpper sp
  else capitalize_hyphenated sp

/-- Post-pass rendering of a whole word: split on `-`, render each piece with
`postCap`, rejoin with `-`. -/
def postWord (w : Str) : Str :=
  joinSep [45] ((splitOnChar 45 w).map postCap)

/-- Replaces the first word by its post-pass rendering (`result[0] = ...`). -/
def setHead : List Str → List Str
  | [] => []
  | r :: rs => postWord r :: rs

/-- Replaces the last word by its post-pass rendering (`result[-1] = ...`). -/
def setLast : List Str → List Str
  | [] => []
  | [r] => [postWord r]
  | r :: rs => r :: setLast rs

/-- Post-pass of `title_case_preserve_numbers` (lines 124–136): re-render the
first word, then the last (for a single word the two assignments compose). -/
def postPass (R : List Str) : List Str := setLast (setHead R)

/-- Source `title_case_preserve_numbers` (lines 49–138). -/
def title_case_preserve_numbers (name : Str) : Str :=
  let words := pySplitWs name
  joinSep [32] (postPass (titleLoop words.length words 0 false))

/-! ### Character-level lemmas -/

theorem pyLower_pyUpper (c : Nat) : pyLower (pyUpper c) = pyLower c := by
  simp only [pyLower, pyUpper]; split_ifs <;> omega

theorem pyUpper_pyLower (c : Nat) : pyUpper (pyLower c) = pyUpper c := by
  simp only [pyLower, pyUpper]; split_ifs <;> omega

theorem pyLower_pyLower (c : Nat) : pyLower (pyLower c) = pyLower c := by
  simp only [pyLower]; split_ifs <;> omega

theorem pyLower_fix {c : Nat} (h : ¬(65 ≤ c ∧ c ≤ 90)) : pyLower c = c := by
  simp only [pyLower]; split_ifs <;> omega

theorem pyUpper_fix {c : Nat} (h : ¬(97 ≤ c ∧ c ≤ 122)) : pyUpper c = c := by
  simp only [pyUpper]; split_ifs <;> omega

theorem pyUpper_not_lowercase (c : Nat) : ¬(97 ≤ pyUpper c ∧ pyUpper c ≤ 122) := by
  simp only [pyUpper]; split_ifs <;> omega

theorem pyLower_eq_iff {c d : Nat} (hd : ¬(65 ≤ d ∧ d ≤ 122)) : pyLower c = d ↔ c = d := by
  simp only [pyLower]; split_ifs <;> omega

theorem isPyWs_pyLower (c : Nat) : isPyWs (pyLower c) = isPyWs c := by
  simp only [isPyWs, pyLower]; split_ifs with h
  · rw [decide_eq_decide]; omega
  · rfl

theorem isMarker_pyLower (c : Nat) : isMarker (pyLower c) = isMarker c := by
  simp only [isMarker, pyLower]; split_ifs with h
  · rw [decide_eq_decide]; omega
  · rfl

theorem isMarker_fix {c : Nat} (h : isMarker c = true) : pyLower c = c := by
  simp only [isMarker, decide_eq_true_eq] at h
  exact pyLower_fix (by omega)

/-! ### String-level case lemmas -/

theorem strLower_strUpper (w : Str) : strLower (strUpper w) = strLower w := by
  simp only [strLower, strUpper, List.map_map]
  exact List.map_congr_left fun a _ => pyLower_pyUpper a

theorem strUpper_strLower (w : Str) : strUpper (strLower w) = strUpper w := by
  simp only [strLower, strUpper, List.map_map]
  exact List.map_congr_left fun a _ => pyUpper_pyLower a

theorem strLower_strLower (w : Str) : strLower (strLower w) = strLower w := by
  simp only [strLower, List.map_map]
  exact List.map_congr_left fun a _ => pyLower_pyLower a

theorem strLower_nil_iff (w : Str) : strLower w = [] ↔ w = [] := by
  simp [strLower]

theorem strLower_append (u v : Str) : strLower (u ++ v) = strLower u ++ strLower v := by
  simp [strLower]

/-! ### `joinSep`, `consHead` and split lemmas -/

theorem joinSep_consHead (d : Str) (c : Nat) (l : List Str) :
    joinSep d (consHead c l) = c :: joinSep d l := by
  match l with
  | [] => rfl
  | [p] => rfl
  | p :: q :: ps => rfl

theorem flatten_consHead (c : Nat) (l : List Str) : (consHead c l).flatten = c :: l.flatten := by
  match l with
  | [] => rfl
  | p :: ps => simp [consHead]

theorem map_strLower_consHead (c : Nat) (l : List Str) :
    (consHead c l).map strLower = consHead (pyLower c) (l.map strLower) := by
  match l with
  | [] => rfl
  | p :: ps => rfl

theorem consHead_ne_nil (c : Nat) (l : List Str) : consHead c l ≠ [] := by
  match l with
  | [] => simp [consHead]
  | p :: ps => simp [consHead]

theorem splitOnChar_ne_nil (sep : Nat) (w : Str) : splitOnChar sep w ≠ [] := by
  match w with
  | [] => simp [splitOnChar]
  | c :: cs =>
      simp only [splitOnChar]
      split
      · simp
      · exact consHead_ne_nil _ _

theorem joinSep_splitOnChar (sep : Nat) (w : Str) :
    joinSep [sep] (splitOnChar sep w) = w := by
  induction w with
  | nil => rfl
  | cons c cs ih =>
      simp only [splitOnChar]
      split
      · rename_i h
        subst h
        rcases hs : splitOnChar c cs with _ | ⟨p, ps⟩
        · exact absurd hs (splitOnChar_ne_nil c cs)
        · rw [hs] at ih
          simp only [joinSep, List.nil_append]
          rw [show ([c] : Str) ++ joinSep [c] (p :: ps) = c :: joinSep [c] (p :: ps) from rfl, ih]
      · rw [joinSep_consHead, ih]

theorem splitKeepMarkers_ne_nil (w : Str) : splitKeepMarkers w ≠ [] := by
  match w with
  | [] => simp [splitKeepMarkers]
  | c :: cs =>
      simp only [splitKeepMarkers]
      split
      · simp
      · exact consHead_ne_nil _ _

theorem flatten_splitKeepMarkers (w : Str) : (splitKeepMarkers w).flatten = w := by
  induction w with
  | nil => rfl
  | cons c cs ih =>
      simp only [splitKeepMarkers]
      split
      · simp [ih]
      · rw [flatten_consHead, ih]

theorem strLower_joinSep (d : Str) (ps : List Str) :
    strLower (joinSep d ps) = joinSep (strLower d) (ps.map strLower) := by
  match ps with
  | [] => rfl
  | [p] => rfl
  | p :: q :: ps' =>
      have ih := strLower_joinSep d (q :: ps')
      simp only [joinSep, List.map_cons]
      rw [strLower_append, strLower_append, ih]
      rfl

theorem splitOnChar_strLower {sep : Nat} (hsep : ¬(65 ≤ sep ∧ sep ≤ 122)) (w : Str) :
    splitOnChar sep (strLower w) = (splitOnChar sep w).map strLower := by
  induction w with
  | nil => rfl
  | cons c cs ih =>
      show splitOnChar sep (pyLower c :: strLower cs) = _
      simp only [splitOnChar]
      by_cases h : c = sep
      · rw [if_pos ((pyLower_eq_iff hsep).mpr h), if_pos h, ih]
        rfl
      · rw [if_neg (fun hh => h ((pyLower_eq_iff hsep).mp hh)), if_neg h, ih,
          map_strLower_consHead]

theorem splitKeepMarkers_strLower (w : Str) :
    splitKeepMarkers (strLower w) = (splitKeepMarkers w).map strLower := by
  induction w with
  | nil => rfl
  | cons c cs ih =>
      show splitKeepMarkers (pyLower c :: strLower cs) = _
      simp only [splitKeepMarkers, isMarker_pyLower]
      split
      · rename_i h
        rw [ih]
        simp [isMarker_fix h, strLower]
      · rw [ih, map_strLower_consHead]

/-! ### Case projection: every rendering step preserves the lowercase image -/

theorem strLower_capPart (p : Str) : strLower (capPart p) = strLower p := by
  match p with
  | [] => rfl
  | [c] => simp [capPart, strLower, pyLower_pyUpper]
  | c :: d :: rest =>
      show strLower ([pyUpper c] ++ strLower (d :: rest)) = strLower ([c] ++ (d :: rest))
      rw [strLower_append, strLower_append, strLower_strLower]
      congr 1
      simp [strLower, pyLower_pyUpper]

theorem map_strLower_capPart (ps : List Str) :
    ps.map (fun p => strLower (capPart p)) = ps.map strLower :=
  List.map_congr_left fun p _ => strLower_capPart p

theorem strLower_capitalize_hyphenated (w : Str) :
    strLower (capitalize_hyphenated w) = strLower w := by
  unfold capitalize_hyphenated
  rw [strLower_joinSep]
  have h1 : strLower [45] = [45] := by decide
  rw [h1, List.map_map]
  rw [show (strLower ∘ capPart) = fun p => strLower (capPart p) from rfl]
  rw [map_strLower_capPart]
  have h2 := strLower_joinSep [45] (splitOnChar 45 w)
  rw [h1] at h2
  rw [← h2, joinSep_splitOnChar]

theorem strLower_compoundRoman {sep : Nat} (hsep : ¬(65 ≤ sep ∧ sep ≤ 122)) {w r : Str}
    (h : compoundRoman sep w = some r) : strLower r = strLower w := by
  simp only [compoundRoman] at h
  split_ifs at h with h1 h2
  · rw [Option.some_inj] at h
    subst h
    rw [strLower_joinSep, List.map_map]
    have hl : strLower [sep] = [sep] := by
      show [pyLower sep] = [sep]
      rw [pyLower_fix (by omega)]
    rw [hl]
    rw [show (strLower ∘ strUpper) = fun p => strLower (strUpper p) from rfl]
    rw [List.map_congr_left (fun p _ => strLower_strUpper p)]
    have h2 := strLower_joinSep [sep] (splitOnChar sep w)
    rw [hl] at h2
    rw [← h2, joinSep_splitOnChar]

theorem strLower_capitalize_special (w : Str) :
    strLower (capitalize_special w) = strLower w := by
  unfold capitalize_special
  split_ifs with h1 h2
  · exact strLower_strUpper w
  · exact strLower_strUpper w
  · rcases h38 : compoundRoman 38 w with _ | r38
    · rcases h43 : compoundRoman 43 w with _ | r43
      · rcases h124 : compoundRoman 124 w with _ | r124
        · simp only [h38, h43, h124]
          exact strLower_capitalize_hyphenated w
        · simp only [h38, h43, h124]
          exact strLower_compoundRoman (by omega) h124
      · simp only [h38, h43]
        exact strLower_compoundRoman (by omega) h43
    · simp only [h38]
      exact strLower_compoundRoman (by omega) h38

theorem strLower_renderCap (p : Str) : strLower (renderCap p) = strLower p := by
  unfold renderCap
  rw [strLower_joinSep]
  have h1 : strLower [45] = [45] := by decide
  rw [h1, List.map_map]
  rw [show (strLower ∘ capitalize_special) = fun q => strLower (capitalize_special q) from rfl]
  rw [List.map_congr_left (fun q _ => strLower_capitalize_special q)]
  have h2 := strLower_joinSep [45] (splitOnChar 45 p)
  rw [h1] at h2
  rw [← h2, joinSep_splitOnChar]

theorem strLower_postCap (sp : Str) : strLower (postCap sp) = strLower sp := by
  unfold postCap
  split_ifs with h
  · exact strLower_strUpper sp
  · exact strLower_capitalize_hyphenated sp

theorem strLower_postWord (w : Str) : strLower (postWord w) = strLower w := by
  unfold postWord
  rw [strLower_joinSep]
  have h1 : strLower [45] = [45] := by decide
  rw [h1, List.map_map]
  rw [show (strLower ∘ postCap) = fun q => strLower (postCap q) from rfl]
  rw [List.map_congr_left (fun q _ => strLower_postCap q)]
  have h2 := strLower_joinSep [45] (splitOnChar 45 w)
  rw [h1] at h2
  rw [← h2, joinSep_splitOnChar]

theorem strLower_processParts (ps : List Str) (isF isL : Bool) :
    ∀ f, strLower (processParts ps isF isL f).1 = strLower ps.flatten := by
  induction ps with
  | nil => intro f; rfl
  | cons p ps ih =>
      intro f
      simp only [processParts]
      split
      · rw [show (p ++ (processParts ps isF isL true).1 : Str)
              = p ++ (processParts ps isF isL true).1 from rfl]
        simp only [List.flatten_cons, strLower_append, ih]
      · split
        · simp only [List.flatten_cons, strLower_append, ih, strLower_renderCap]
        · simp only [List.flatten_cons, strLower_append, ih, strLower_strLower]

theorem strLower_processWord (w : Str) (isF isL f : Bool) :
    strLower (processWord w isF isL f).1 = strLower w := by
  unfold processWord
  rw [strLower_processParts, flatten_splitKeepMarkers]

theorem map_strLower_titleLoop (n : Nat) (ws : List Str) :
    ∀ idx f, (titleLoop n ws idx f).map strLower = ws.map strLower := by
  induction ws with
  | nil => intro idx f; rfl
  | cons w ws ih =>
      intro idx f
      simp only [titleLoop, List.map_cons, strLower_processWord, ih]

theorem map_strLower_setHead (R : List Str) : (setHead R).map strLower = R.map strLower := by
  match R with
  | [] => rfl
  | r :: rs => simp [setHead, strLower_postWord]

theorem map_strLower_setLast (R : List Str) : (setLast R).map strLower = R.map strLower := by
  match R with
  | [] => rfl
  | [r] => simp [setLast, strLower_postWord]
  | r :: r' :: rs =>
      have ih := map_strLower_setLast (r' :: rs)
      simp only [setLast, List.map_cons] at ih ⊢
      rw [ih]

theorem map_strLower_postPass (R : List Str) : (postPass R).map strLower = R.map strLower := by
  unfold postPass
  rw [map_strLower_setLast, map_strLower_setHead]

/-! ### Lowercase invariance: every rendering step only reads the lowercase image -/

theorem capPart_strLower (p : Str) : capPart (strLower p) = capPart p := by
  match p with
  | [] => rfl
  | [c] => simp [capPart, strLower, pyUpper_pyLower]
  | c :: d :: rest =>
      show capPart (pyLower c :: strLower (d :: rest)) = _
      rcases hmap : strLower (d :: rest) with _ | ⟨x, xs⟩
      · exact absurd ((strLower_nil_iff (d :: rest)).mp hmap) (by simp)
      · simp only [capPart, pyUpper_pyLower]
        rw [← hmap, strLower_strLower]

theorem capitalize_hyphenated_strLower (w : Str) :
    capitalize_hyphenated (strLower w) = capitalize_hyphenated w := by
  unfold capitalize_hyphenated
  rw [splitOnChar_strLower (by omega), List.map_map]
  rw [show (capPart ∘ strLower) = fun p => capPart (strLower p) from rfl]
  rw [List.map_congr_left (fun p _ => capPart_strLower p)]

theorem is_roman_numeral_strLower (w : Str) :
    is_roman_numeral (strLower w) = is_roman_numeral w := by
  unfold is_roman_numeral
  rw [strUpper_strLower]

theorem contains_strLower {sep : Nat} (hsep : ¬(65 ≤ sep ∧ sep ≤ 122)) (w : Str) :
    (strLower w).contains sep = w.contains sep := by
  induction w with
  | nil => rfl
  | cons c cs ih =>
      show (pyLower c :: strLower cs).contains sep = _
      simp only [List.contains_cons, ih]
      congr 1
      by_cases h : c = sep
      · subst h
        rw [pyLower_fix (by omega)]
      · have h2 : pyLower c ≠ sep := fun hh => h ((pyLower_eq_iff hsep).mp hh)
        rw [Bool.eq_iff_iff]
        simp only [beq_iff_eq]
        constructor
        · intro hh
          exact absurd hh.symm h2
        · intro hh
          exact absurd hh.symm h

theorem compoundRoman_strLower {sep : Nat} (hsep : ¬(65 ≤ sep ∧ sep ≤ 122)) (w : Str) :
    compoundRoman sep (strLower w) = compoundRoman sep w := by
  unfold compoundRoman
  rw [contains_strLower hsep, splitOnChar_strLower hsep]
  simp only [List.all_map, List.map_map]
  rw [show (is_roman_numeral ∘ strLower) = is_roman_numeral from funext is_roman_numeral_strLower,
    show (strUpper ∘ strLower) = strUpper from funext strUpper_strLower]

theorem capitalize_special_strLower (w : Str) :
    capitalize_special (strLower w) = capitalize_special w := by
  unfold capitalize_special
  rw [strUpper_strLower, is_roman_numeral_strLower, compoundRoman_strLower (by omega),
    compoundRoman_strLower (by omega), compoundRoman_strLower (by omega),
    capitalize_hyphenated_strLower]

theorem renderCap_strLower (p : Str) : renderCap (strLower p) = renderCap p := by
  unfold renderCap
  rw [splitOnChar_strLower (by omega), List.map_map]
  rw [show (capitalize_special ∘ strLower) = fun q => capitalize_special (strLower q) from rfl]
  rw [show (fun q => capitalize_special (strLower q)) = capitalize_special from
        funext fun q => capitalize_special_strLower q]

theorem postCap_strLower (sp : Str) : postCap (strLower sp) = postCap sp := by
  unfold postCap
  rw [strUpper_strLower, is_roman_numeral_strLower, capitalize_hyphenated_strLower]

theorem postWord_strLower (w : Str) : postWord (strLower w) = postWord w := by
  unfold postWord
  rw [splitOnChar_strLower (by omega), List.map_map]
  rw [show (postCap ∘ strLower) = fun q => postCap (strLower q) from rfl]
  rw [show (fun q => postCap (strLower q)) = postCap from funext fun q => postCap_strLower q]

theorem isMarkerPart_strLower (p : Str) : isMarkerPart (strLower p) = isMarkerPart p := by
  match p with
  | [] => rfl
  | [c] => simp [isMarkerPart, strLower, isMarker_pyLower]
  | c :: d :: rest => rfl

theorem isMarkerPart_fix {p : Str} (h : isMarkerPart p = true) : strLower p = p := by
  match p with
  | [] => rfl
  | [c] =>
      show [pyLower c] = [c]
      rw [isMarker_fix (by simpa [isMarkerPart] using h)]
  | c :: d :: rest => exact absurd h (by simp [isMarkerPart])

theorem containsMarker_strLower (w : Str) : containsMarker (strLower w) = containsMarker w := by
  unfold containsMarker strLower
  rw [List.any_map]
  rw [show (isMarker ∘ pyLower) = fun c => isMarker (pyLower c) from rfl]
  rw [show (fun c => isMarker (pyLower c)) = isMarker from funext fun c => isMarker_pyLower c]

theorem processParts_strLower (ps : List Str) (isF isL : Bool) :
    ∀ f, processParts (ps.map strLower) isF isL f = processParts ps isF isL f := by
  induction ps with
  | nil => intro f; rfl
  | cons p ps ih =>
      intro f
      simp only [List.map_cons, processParts, isMarkerPart_strLower]
      split
      · rename_i h
        rw [isMarkerPart_fix h, ih]
      · rw [strLower_strLower, renderCap_strLower, ih]

theorem processWord_strLower (w : Str) (isF isL f : Bool) :
    processWord (strLower w) isF isL f = processWord w isF isL f := by
  unfold processWord
  rw [splitKeepMarkers_strLower, processParts_strLower, containsMarker_strLower]

theorem processWord_congr {v w : Str} (h : strLower v = strLower w) (isF isL f : Bool) :
    processWord v isF isL f = processWord w isF isL f := by
  rw [← processWord_strLower v, h, processWord_strLower]

theorem titleLoop_congr (n : Nat) :
    ∀ vs ws : List Str, vs.map strLower = ws.map strLower →
      ∀ idx f, titleLoop n vs idx f = titleLoop n ws idx f := by
  intro vs
  induction vs with
  | nil =>
      intro ws h idx f
      rw [List.map_nil] at h
      rw [(List.map_eq_nil_iff.mp h.symm)]
  | cons v vs ih =>
      intro ws h idx f
      match ws with
      | [] => simp at h
      | w :: ws =>
          simp only [List.map_cons, List.cons.injEq] at h
          simp only [titleLoop]
          rw [processWord_congr h.1, ih ws h.2]

/-! ### Words of the output: `pySplitWs` facts -/

/-- Verification vocabulary: a string free of Python whitespace. -/
def wsFree (s : Str) : Bool := s.all fun c => !isPyWs c

theorem wsFree_strLower (s : Str) : wsFree (strLower s) = wsFree s := by
  unfold wsFree strLower
  rw [List.all_map]
  rw [show ((fun c => !isPyWs c) ∘ pyLower) = fun c => !isPyWs (pyLower c) from rfl]
  rw [show (fun c => !isPyWs (pyLower c)) = fun c => !isPyWs c from
        funext fun c => by rw [isPyWs_pyLower]]

theorem splitWsCore_sound (s : Str) :
    ∀ acc, wsFree acc = true → ∀ w ∈ splitWsCore s acc, w ≠ [] ∧ wsFree w = true := by
  induction s with
  | nil =>
      intro acc hacc w hw
      simp only [splitWsCore] at hw
      split at hw
      · simp at hw
      · rename_i hne
        simp only [List.mem_singleton] at hw
        subst hw
        refine ⟨?_, ?_⟩
        · simp only [ne_eq, List.reverse_eq_nil_iff]
          simpa [List.isEmpty_iff] using hne
        · unfold wsFree at hacc ⊢
          simpa using hacc
  | cons c cs ih =>
      intro acc hacc w hw
      simp only [splitWsCore] at hw
      split at hw
      · split at hw
        · exact ih [] rfl w hw
        · rename_i hne
          rw [List.mem_cons] at hw
          rcases hw with hw | hw
          · subst hw
            refine ⟨?_, ?_⟩
            · simp only [ne_eq, List.reverse_eq_nil_iff]
              simpa [List.isEmpty_iff] using hne
            · unfold wsFree at hacc ⊢
              simpa using hacc
          · exact ih [] rfl w hw
      · rename_i hc
        refine ih (c :: acc) ?_ w hw
        unfold wsFree at hacc ⊢
        simp [hacc, hc]

theorem pySplitWs_sound (s : Str) : ∀ w ∈ pySplitWs s, w ≠ [] ∧ wsFree w = true :=
  splitWsCore_sound s [] rfl

theorem splitWsCore_append {w : Str} (hw : wsFree w = true) (s : Str) :
    ∀ acc, splitWsCore (w ++ s) acc = splitWsCore s (w.reverse ++ acc) := by
  induction w with
  | nil => intro acc; rfl
  | cons c w' ih =>
      intro acc
      have hc : isPyWs c = false := by
        unfold wsFree at hw
        simp only [List.all_cons, Bool.and_eq_true, Bool.not_eq_true'] at hw
        exact hw.1
      have hw' : wsFree w' = true := by
        unfold wsFree at hw ⊢
        simp only [List.all_cons, Bool.and_eq_true] at hw
        exact hw.2
      show splitWsCore (c :: (w' ++ s)) acc = _
      simp only [splitWsCore, hc, Bool.false_eq_true, if_false]
      rw [ih hw', List.reverse_cons, List.append_assoc]
      rfl

theorem pySplitWs_joinSep (R : List Str) :
    (∀ r ∈ R, r ≠ [] ∧ wsFree r = true) → pySplitWs (joinSep [32] R) = R := by
  induction R with
  | nil => intro _; rfl
  | cons r R ih =>
      intro hR
      have hr := hR r (by simp)
      match R with
      | [] =>
          show splitWsCore (joinSep [32] [r]) [] = [r]
          have : joinSep [32] [r] = r ++ [] := by simp [joinSep]
          rw [this, splitWsCore_append hr.2]
          simp only [splitWsCore, List.append_nil]
          rw [if_neg (by simpa [List.isEmpty_iff, List.reverse_eq_nil_iff] using hr.1)]
          rw [List.reverse_reverse]
      | r' :: R' =>
          show splitWsCore (joinSep [32] (r :: r' :: R')) [] = r :: r' :: R'
          have hjoin : joinSep [32] (r :: r' :: R') = r ++ (32 :: joinSep [32] (r' :: R')) := by
            simp [joinSep]
          rw [hjoin, splitWsCore_append hr.2]
          have h32 : isPyWs 32 = true := rfl
          simp only [splitWsCore, h32, if_true, List.append_nil]
          rw [if_neg (by simpa [List.isEmpty_iff, List.reverse_eq_nil_iff] using hr.1)]
          rw [List.reverse_reverse]
          exact congrArg (r :: ·) (ih fun x hx => hR x (by simp [hx]))

/-! ### Length lemmas -/

theorem length_titleLoop (n : Nat) (ws : List Str) :
    ∀ idx f, (titleLoop n ws idx f).length = ws.length := by
  induction ws with
  | nil => intro idx f; rfl
  | cons w ws ih =>
      intro idx f
      simp only [titleLoop, List.length_cons, ih]

theorem length_setHead (R : List Str) : (setHead R).length = R.length := by
  match R with
  | [] => rfl
  | r :: rs => rfl

theorem length_setLast (R : List Str) : (setLast R).length = R.length := by
  match R with
  | [] => rfl
  | [r] => rfl
  | r :: r' :: rs =>
      have ih := length_setLast (r' :: rs)
      simp only [setLast, List.length_cons] at ih ⊢
      rw [ih]

theorem length_postPass (R : List Str) : (postPass R).length = R.length := by
  unfold postPass
  rw [length_setLast, length_setHead]

/-! ### The rendered word list and the words of the rendered string -/

/-- Word list produced by `title_case_preserve_numbers` before the final join. -/
def tcWords (s : Str) : List Str :=
  postPass (titleLoop (pySplitWs s).length (pySplitWs s) 0 false)

theorem title_case_eq_joinSep (s : Str) :
    title_case_preserve_numbers s = joinSep [32] (tcWords s) := rfl

theorem map_strLower_tcWords (s : Str) :
    (tcWords s).map strLower = (pySplitWs s).map strLower := by
  unfold tcWords
  rw [map_strLower_postPass, map_strLower_titleLoop]

theorem tcWords_sound (s : Str) : ∀ r ∈ tcWords s, r ≠ [] ∧ wsFree r = true := by
  intro r hr
  have hmem : strLower r ∈ (tcWords s).map strLower := List.mem_map_of_mem strLower hr
  rw [map_strLower_tcWords] at hmem
  rcases List.mem_map.mp hmem with ⟨w, hw, hlw⟩
  have hsound := pySplitWs_sound s w hw
  refine ⟨?_, ?_⟩
  · intro hnil
    apply hsound.1
    rw [← strLower_nil_iff w, hlw, hnil]
    rfl
  · rw [← wsFree_strLower, ← hlw, wsFree_strLower]
    exact hsound.2

theorem pySplitWs_title_case (s : Str) :
    pySplitWs (title_case_preserve_numbers s) = tcWords s := by
  rw [title_case_eq_joinSep]
  exact pySplitWs_joinSep (tcWords s) (tcWords_sound s)

/-! ### Idempotence of the title caser -/

theorem title_case_idem (s : Str) :
    title_case_preserve_numbers (title_case_preserve_numbers s)
      = title_case_preserve_numbers s := by
  have hW : pySplitWs (title_case_preserve_numbers s) = tcWords s := pySplitWs_title_case s
  have hlen : (tcWords s).length = (pySplitWs s).length := by
    unfold tcWords
    rw [length_postPass, length_titleLoop]
  show joinSep [32]
      (postPass (titleLoop (pySplitWs (title_case_preserve_numbers s)).length
        (pySplitWs (title_case_preserve_numbers s)) 0 false))
    = title_case_preserve_numbers s
  rw [hW, hlen,
    titleLoop_congr (pySplitWs s).length (tcWords s) (pySplitWs s) (map_strLower_tcWords s) 0 false]
  rfl

/-! ### The force-capitalize mode after a word -/

theorem processParts_force (ps : List Str) (isF isL : Bool) :
    ∀ f, (processParts ps isF isL f).2 = (f || ps.any isMarkerPart) := by
  induction ps with
  | nil => intro f; simp [processParts]
  | cons p ps ih =>
      intro f
      simp only [processParts, List.any_cons]
      split
      · rename_i h
        rw [ih]
        simp [h]
      · rename_i h
        rw [ih]
        simp only [Bool.not_eq_true] at h
        simp [h]

theorem splitKeepMarkers_headChunk (cs : Str) :
    ∀ p ps, splitKeepMarkers cs = p :: ps → p.all (fun x => !isMarker x) = true := by
  induction cs with
  | nil =>
      intro p ps h
      simp only [splitKeepMarkers, List.cons.injEq] at h
      rw [← h.1]
      rfl
  | cons c cs ih =>
      intro p ps h
      simp only [splitKeepMarkers] at h
      split at h
      · simp only [List.cons.injEq] at h
        rw [← h.1]
        rfl
      · rename_i hc
        rcases hk : splitKeepMarkers cs with _ | ⟨q, qs⟩
        · exact absurd hk (splitKeepMarkers_ne_nil cs)
        · rw [hk] at h
          simp only [consHead, List.cons.injEq] at h
          rw [← h.1]
          simp only [List.all_cons, Bool.and_eq_true, Bool.not_eq_true']
          rw [Bool.not_eq_true] at hc
          exact ⟨hc, ih q qs hk⟩

theorem any_isMarkerPart (w : Str) :
    (splitKeepMarkers w).any isMarkerPart = containsMarker w := by
  induction w with
  | nil => rfl
  | cons c cs ih =>
      show (splitKeepMarkers (c :: cs)).any isMarkerPart = (c :: cs).any isMarker
      simp only [splitKeepMarkers, List.any_cons]
      split
      · rename_i h
        simp [isMarkerPart, h]
      · rename_i h
        rw [Bool.not_eq_true] at h
        rcases hk : splitKeepMarkers cs with _ | ⟨q, qs⟩
        · exact absurd hk (splitKeepMarkers_ne_nil cs)
        · rw [hk] at ih
          have hq := splitKeepMarkers_headChunk cs q qs hk
          have hcq : isMarkerPart (c :: q) = false := by
            match q with
            | [] => simpa [isMarkerPart] using h
            | x :: xs => rfl
          have hqf : isMarkerPart q = false := by
            match q with
            | [] => rfl
            | [d] =>
                simp only [List.all_cons, List.all_nil, Bool.and_true,
                  Bool.not_eq_true'] at hq
                simpa [isMarkerPart] using hq
            | d :: e :: xs => rfl
          simp only [consHead, List.any_cons, hcq, Bool.false_or, h]
          rw [List.any_cons, hqf, Bool.false_or] at ih
          exact ih

theorem processWord_force (w : Str) (isF isL f : Bool) :
    (processWord w isF isL f).2 = containsMarker w := by
  show (if containsMarker w then (processParts (splitKeepMarkers w) isF isL f).2 else false)
      = containsMarker w
  rw [processParts_force, any_isMarkerPart]
  cases h : containsMarker w
  · simp
  · simp

/-! ### The post-pass and filler words -/

theorem postCap_nil : postCap ([] : Str) = [] := by decide

theorem joinSep_head_cons (d : Str) (c : Nat) (x : Str) (xs : List Str) :
    (joinSep d ((c :: x) :: xs)).head? = some c := by
  match xs with
  | [] => rfl
  | y :: ys => rfl

theorem capPart_head (c : Nat) (q : Str) : (capPart (c :: q)).head? = some (pyUpper c) := by
  match q with
  | [] => rfl
  | d :: rest => rfl

theorem postCap_head (c : Nat) (q : Str) (hc : c ≠ 45) :
    (postCap (c :: q)).head? = some (pyUpper c) := by
  unfold postCap
  split_ifs with h
  · rfl
  · unfold capitalize_hyphenated
    have hsplit : splitOnChar 45 (c :: q) = consHead c (splitOnChar 45 q) := by
      simp [splitOnChar, hc]
    rw [hsplit]
    rcases hk : splitOnChar 45 q with _ | ⟨q0, qs0⟩
    · exact absurd hk (splitOnChar_ne_nil _ _)
    · show (joinSep [45] (((c :: q0) :: qs0).map capPart)).head? = some (pyUpper c)
      simp only [List.map_cons]
      rcases hcap : capPart (c :: q0) with _ | ⟨x, xs⟩
      · have := capPart_head c q0
        rw [hcap] at this
        simp at this
      · have hx := capPart_head c q0
        rw [hcap] at hx
        simp only [List.head?_cons, Option.some_inj] at hx
        rw [joinSep_head_cons]
        rw [hx]

theorem postWord_head (c : Nat) (cs : Str) :
    (postWord (c :: cs)).head? = some (pyUpper c) := by
  unfold postWord
  by_cases hc : c = 45
  · subst hc
    have hsplit : splitOnChar 45 (45 :: cs) = [] :: splitOnChar 45 cs := by
      simp [splitOnChar]
    rw [hsplit]
    rcases hk : splitOnChar 45 cs with _ | ⟨q, qs⟩
    · exact absurd hk (splitOnChar_ne_nil _ _)
    · simp only [List.map_cons, postCap_nil]
      show (joinSep [45] ([] :: postCap q :: qs.map postCap)).head? = some (pyUpper 45)
      have : joinSep [45] ([] :: postCap q :: qs.map postCap)
          = ([] : Str) ++ [45] ++ joinSep [45] (postCap q :: qs.map postCap) := rfl
      rw [this]
      simp only [List.nil_append, List.cons_append, List.head?_cons]
      decide
  · have hsplit : splitOnChar 45 (c :: cs) = consHead c (splitOnChar 45 cs) := by
      simp [splitOnChar, hc]
    rw [hsplit]
    rcases hk : splitOnChar 45 cs with _ | ⟨q, qs⟩
    · exact absurd hk (splitOnChar_ne_nil _ _)
    · show (joinSep [45] (((c :: q) :: qs).map postCap)).head? = some (pyUpper c)
      simp only [List.map_cons]
      rcases hcap : postCap (c :: q) with _ | ⟨x, xs⟩
      · have := postCap_head c q hc
        rw [hcap] at this
        simp at this
      · have hx := postCap_head c q hc
        rw [hcap] at hx
        simp only [List.head?_cons, Option.some_inj] at hx
        rw [joinSep_head_cons, hx]

theorem postWord_ne_nil (v : Str) (hv : v ≠ []) : postWord v ≠ [] := by
  intro h
  have hpr := strLower_postWord v
  rw [h] at hpr
  exact hv ((strLower_nil_iff v).mp hpr.symm)

theorem exceptions_head_lower :
    ∀ e ∈ lowercase_exceptions, 97 ≤ e.head?.getD 0 ∧ e.head?.getD 0 ≤ 122 := by decide

theorem postWord_not_filler (v : Str) (hv : v ≠ []) :
    lowercase_exceptions.contains (postWord v) = false := by
  match v, hv with
  | c :: cs, _ =>
      cases hcon : lowercase_exceptions.contains (postWord (c :: cs))
      · rfl
      · exfalso
        have hmem : postWord (c :: cs) ∈ lowercase_exceptions := by
          rw [List.contains] at hcon
          exact List.elem_iff.mp hcon
        have hh := exceptions_head_lower _ hmem
        rw [postWord_head] at hh
        simp only [Option.getD_some] at hh
        exact pyUpper_not_lowercase c hh

theorem head?_postPass (R : List Str) (hR : ∀ r ∈ R, r ≠ []) (w : Str)
    (h : (postPass R).head? = some w) : ∃ v, v ≠ [] ∧ w = postWord v := by
  match R with
  | [] => simp [postPass, setHead, setLast] at h
  | [r] =>
      refine ⟨postWord r, postWord_ne_nil r (hR r (by simp)), ?_⟩
      have hpp : postPass [r] = [postWord (postWord r)] := rfl
      rw [hpp] at h
      simp only [List.head?_cons, Option.some_inj] at h
      exact h.symm
  | r :: r' :: rs =>
      refine ⟨r, hR r (by simp), ?_⟩
      have hpp : postPass (r :: r' :: rs) = postWord r :: setLast (r' :: rs) := rfl
      rw [hpp] at h
      simp only [List.head?_cons, Option.some_inj] at h
      exact h.symm

theorem getLast?_setLast (l : List Str) : (setLast l).getLast? = l.getLast?.map postWord := by
  match l with
  | [] => rfl
  | [r] => rfl
  | r :: r' :: rs =>
      have ih := getLast?_setLast (r' :: rs)
      show (r :: setLast (r' :: rs)).getLast? = ((r :: r' :: rs).getLast?).map postWord
      rcases hsl : setLast (r' :: rs) with _ | ⟨x, xs⟩
      · have hl := length_setLast (r' :: rs)
        rw [hsl] at hl
        simp at hl
      · rw [show (r :: r' :: rs).getLast? = (r' :: rs).getLast? from List.getLast?_cons_cons]
        rw [← ih, hsl]
        exact List.getLast?_cons_cons

theorem getLast?_postPass (R : List Str) (hR : ∀ r ∈ R, r ≠ []) (w : Str)
    (h : (postPass R).getLast? = some w) : ∃ v, v ≠ [] ∧ w = postWord v := by
  match R with
  | [] => simp [postPass, setHead, setLast] at h
  | r :: rs =>
      have h2 : (postPass (r :: rs)).getLast? = ((postWord r :: rs).getLast?).map postWord := by
        show (setLast (setHead (r :: rs))).getLast? = _
        rw [show setHead (r :: rs) = postWord r :: rs from rfl]
        exact getLast?_setLast _
      rw [h2] at h
      rcases hgl : (postWord r :: rs).getLast? with _ | v0
      · rw [hgl] at h
        simp at h
      · rw [hgl] at h
        rw [Option.map_some'] at h
        have hv0 : v0 ∈ postWord r :: rs := List.mem_of_mem_getLast? (by rw [hgl]; rfl)
        have hne : v0 ≠ [] := by
          rcases List.mem_cons.mp hv0 with h1 | h1
          · rw [h1]
            exact postWord_ne_nil r (hR r (by simp))
          · exact hR v0 (by simp [h1])
        rw [Option.some_inj] at h
        exact ⟨v0, hne, h.symm⟩

theorem titleLoop_words_ne_nil (s : Str) :
    ∀ r ∈ titleLoop (pySplitWs s).length (pySplitWs s) 0 false, r ≠ [] := by
  intro r hr
  have hmem := List.mem_map_of_mem strLower hr
  rw [map_strLower_titleLoop] at hmem
  rcases List.mem_map.mp hmem with ⟨w, hw, hlw⟩
  intro hnil
  apply (pySplitWs_sound s w hw).1
  rw [← strLower_nil_iff w, hlw, hnil]
  rfl

/-! ## Claim theorems -/

/-- C1: the claim says the post-pass override renders a first/last compound
Roman numeral word piecewise uppercased (so `title_case(sanitize("chapter
i&ii"))` would end in `I&II`). The code does not: the word loop renders the
last word `i&ii` as `I&II` (`capitalize_special`, second conjunct), but the
post-pass re-renders the first and last words with only the acronym and plain
Roman-numeral cases (`postWord`, third conjunct), so the published output is
`"Chapter I&ii"` (first conjunct), contradicting both the claim and the
function's own docstring (`I&ii → I&II`). -/
theorem C1_compound_postpass_eval :
    title_case_preserve_numbers (sanitize_name (str "chapter i&ii")) = str "Chapter I&ii"
    ∧ capitalize_special (str "i&ii") = str "I&II"
    ∧ postWord (str "I&II") = str "I&ii" := by
  refine ⟨by decide, by decide, by decide⟩

/-- C2 counterexample: the claim states `is_roman_numeral("")` is false, but
the anchored pattern accepts the empty factorization, so the source returns
`True` on the empty token. -/
theorem C2_counterexample : ¬ is_roman_numeral [] = false := by decide

/-- C2 (amended): `is_roman_numeral("")` is true — every group of the pattern
matches zero characters — so empty segments are in fact routed through the
Roman-numeral branch of the renderers; but uppercasing the empty string is
the empty string, so each renderer maps an empty segment to an empty segment
and no separator character is ever uppercased (`"a: b"` still renders with
its `:` intact). -/
theorem C2_empty_token_roman :
    is_roman_numeral [] = true
    ∧ capitalize_special [] = []
    ∧ renderCap [] = []
    ∧ postCap [] = []
    ∧ title_case_preserve_numbers (str "a: b") = str "A: B" := by
  refine ⟨by decide, by decide, by decide, by decide, by decide⟩

/-- C3: `title_case` is idempotent after `sanitize`: re-applying the title
caser to its own output changes nothing, for every input string. -/
theorem C3_title_case_idempotent (x : Str) :
    title_case_preserve_numbers (title_case_preserve_numbers (sanitize_name x))
      = title_case_preserve_numbers (sanitize_name x) :=
  title_case_idem (sanitize_name x)

/-- C4: the first and the last whitespace word of `title_case`'s output is
never a member of the filler-word set left entirely lowercase, for every
input (including a single word that is both first and last). -/
theorem C4_boundary_words_not_filler (s w : Str)
    (h : (pySplitWs (title_case_preserve_numbers s)).head? = some w
       ∨ (pySplitWs (title_case_preserve_numbers s)).getLast? = some w) :
    lowercase_exceptions.contains w = false := by
  rw [pySplitWs_title_case] at h
  unfold tcWords at h
  have hne : ∀ r ∈ titleLoop (pySplitWs s).length (pySplitWs s) 0 false, r ≠ [] :=
    titleLoop_words_ne_nil s
  rcases h with h | h
  · rcases head?_postPass _ hne w h with ⟨v, hv, rfl⟩
    exact postWord_not_filler v hv
  · rcases getLast?_postPass _ hne w h with ⟨v, hv, rfl⟩
    exact postWord_not_filler v hv

/-- C4 witness: on the single-word input `"the"` the (first = last) output
word is `"The"`, which is not a lowercase filler. -/
theorem C4_witness : lowercase_exceptions.contains (str "The") = false :=
  C4_boundary_words_not_filler (str "the") (str "The") (Or.inl (by decide))

/-- C5: a filler word immediately after a subtitle marker is
force-capitalized (`"game: the return"` renders as `"Game: The Return"`),
and the force-capitalize mode carried out of a word equals exactly whether
that word contained a marker: it persists through marker words and is
switched off as soon as one marker-free word has been rendered. -/
theorem C5_subtitle_force_capitalize :
    title_case_preserve_numbers (sanitize_name (str "game: the return")) = str "Game: The Return"
    ∧ ∀ (w : Str) (isF isL f : Bool), (processWord w isF isL f).2 = containsMarker w :=
  ⟨by decide, processWord_force⟩

/-- C6: the positional filler rule — a non-marker segment is rendered
capitalized iff force-capitalize mode is on, or the word is first or last, or
its lowercasing is not in the filler set, and lowercased verbatim otherwise —
and the example `"the lord of the rings"` renders as
`"The Lord of the Rings"`. -/
theorem C6_filler_positional_rule :
    title_case_preserve_numbers (sanitize_name (str "the lord of the rings"))
      = str "The Lord of the Rings"
    ∧ ∀ (p : Str) (isF isL f : Bool), isMarkerPart p = false →
        (processParts [p] isF isL f).1 =
          if f || isF || isL || !(lowercase_exceptions.contains (strLower p)) then renderCap p
          else strLower p := by
  constructor
  · decide
  · intro p isF isL f h
    simp only [processParts, h, Bool.false_eq_true, if_false, List.append_nil]

/-- C6 witness: the mid-string segment `"of"` with the mode off is rendered
lowercase. -/
theorem C6_witness : (processParts [str "of"] false false false).1 = strLower (str "of") := by
  have h := C6_filler_positional_rule.2 (str "of") false false false (by decide)
  rw [h]
  decide

/-- C7: classifier-aware rendering — every acronym of the set survives
unchanged as a standalone word, a Roman-numeral word is fully uppercased
(`"final fantasy vii"` → `"Final Fantasy VII"`), a mid-string compound
numeral is piecewise uppercased (`"chapter i&ii bonus"` →
`"Chapter I&II Bonus"`), and the compound rule does not fire when some piece
is not a numeral (`"i&a"` falls back to hyphen capitalization `"I&a"`). -/
theorem C7_classifier_rendering :
    (∀ A ∈ ACRONYMS,
      A <:+: title_case_preserve_numbers (sanitize_name (str "play " ++ A ++ str " now")))
    ∧ title_case_preserve_numbers (sanitize_name (str "final fantasy vii"))
        = str "Final Fantasy VII"
    ∧ title_case_preserve_numbers (sanitize_name (str "chapter i&ii bonus"))
        = str "Chapter I&II Bonus"
    ∧ capitalize_special (str "i&a") = str "I&a" := by
  refine ⟨by decide, by decide, by decide, by decide⟩

/-- C7 witness: the acronym `"HD"` survives unchanged inside
`"play HD now"`. -/
theorem C7_witness :
    str "HD" <:+: title_case_preserve_numbers (sanitize_name (str "play " ++ str "HD" ++ str " now")) :=
  C7_classifier_rendering.1 (str "HD") (by decide)

/-- C8: `sanitize` replaces each occurrence of the three-character sequence
space-hyphen-space by one space (left to right over the original string) and
then collapses whitespace runs: `"Game   -   Name"` → `"Game Name"`, and
every occurrence is merged (`"a - b - c"` → `"a b c"`). -/
theorem C8_sanitize_dash_merge :
    sanitize_name (str "Game   -   Name") = str "Game Name"
    ∧ replaceDash (str "a - b - c") = str "a b c"
    ∧ sanitize_name (str "a - b - c") = str "a b c" := by
  refine ⟨by decide, by decide, by decide⟩

/-- C9: `sanitize_name` and `title_case_preserve_numbers` are total functions
of the model (they are defined by structural recursion and return for every
input, mirroring the exception-free source), and on degenerate inputs —
the empty string, whitespace only, marker-only strings, quote-only strings —
they return the documented (possibly empty) strings; in particular both map
the empty string to the empty string. -/
theorem C9_total_empty :
    sanitize_name [] = []
    ∧ title_case_preserve_numbers [] = []
    ∧ sanitize_name (str "   ") = []
    ∧ title_case_preserve_numbers (str ":::") = str ":::"
    ∧ sanitize_name [39, 8217, 96, 34] = [] := by
  refine ⟨by decide, by decide, by decide, by decide, by decide⟩

/-- C10: `title_case` preserves all non-whitespace content up to letter
case: the output has the same number of whitespace words as the input, each
output word has the same lowercase image as the corresponding input word
(same characters, case aside), the output is exactly its words joined by
single spaces, and two code points with equal `pyLower` image are either
equal or an upper/lower pair of the same ASCII letter. -/
theorem C10_word_structure (s : Str) :
    (pySplitWs (title_case_preserve_numbers s)).length = (pySplitWs s).length
    ∧ (pySplitWs (title_case_preserve_numbers s)).map strLower = (pySplitWs s).map strLower
    ∧ title_case_preserve_numbers s = joinSep [32] (pySplitWs (title_case_preserve_numbers s))
    ∧ ∀ a b : Nat, pyLower a = pyLower b →
        a = b ∨ (65 ≤ a ∧ a ≤ 90 ∧ b = a + 32) ∨ (65 ≤ b ∧ b ≤ 90 ∧ a = b + 32) := by
  refine ⟨?_, ?_, ?_, ?_⟩
  · rw [pySplitWs_title_case]
    unfold tcWords
    rw [length_postPass, length_titleLoop]
  · rw [pySplitWs_title_case, map_strLower_tcWords]
  · rw [pySplitWs_title_case]
    exact title_case_eq_joinSep s
  · intro a b h
    simp only [pyLower] at h
    split_ifs at h <;> omega

/-- C10 witness: `pyLower 65 = pyLower 97` and indeed 65/97 are the
upper/lower pair `A`/`a`. -/
theorem C10_witness :
    (65 : Nat) = 97 ∨ (65 ≤ 65 ∧ 65 ≤ 90 ∧ 97 = 65 + 32) ∨ (65 ≤ 97 ∧ 97 ≤ 90 ∧ 65 = 97 + 32) :=
  (C10_word_structure (str "x")).2.2.2 65 97 (by decide)

end ModAlchemist
